import Mathlib

/-!
Verification of the Radicchi community-detection algorithm
(`circulo/algorithms/radicchi.py`).

The embedding models an undirected simple graph as a vertex count `n`
together with a list of edges, each stored once as an ordered pair
`(u, v)` with `u < v` (the canonical orientation igraph uses for
undirected simple graphs).  Vertices of a working copy carry an `ids`
attribute mapping them back to vertices of the original graph, exactly
as `radicchi` tags its working copy with `g.vs['id']`.

Python floats produced by the edge-clustering coefficients are modelled
as `Option ℚ`: `none` stands for `float('inf')`, `some q` for the
(exactly representable) finite quotient.  Finite quotients are built
with `Rat.divInt`, which denotes the same rational as `/` (see
`Rat.divInt_eq_div`) but evaluates inside the kernel.  The only operations the
algorithm performs on scores are order comparison, equality and the
truthiness test `not min_ecc`, all of which are modelled explicitly.

Python's iteration over the *set* `edges` has no specified order; the
embedding makes the order an explicit parameter `ord` (a function that
permutes the canonical edge enumeration).  `fun l => l` recovers the
canonical order, and `radicchi` is defined with that.

The Python code mutates its working igraph object and its bookkeeping
structures in place; the embedding threads them through the recursion
explicitly.  The original graph object, which Python shares by
reference across every recursion level, is threaded through every call
and returned, so that the claim that it is never mutated is a theorem
about the embedding rather than a typing accident.
-/

/-- A graph: `n` vertices `0, …, n-1`, an `ids` vertex attribute
(`g.vs['id']` in igraph; empty when the attribute is unset) and a list
of edges in canonical orientation. -/
structure Graph where
  n : Nat
  ids : List Nat
  edges : List (Nat × Nat)
deriving Repr, DecidableEq

/-- Degree of `v`: the number of edges incident to `v`
(igraph `g.degree()` for a simple graph). -/
def Graph.degreeOf (g : Graph) (v : Nat) : Nat :=
  (g.edges.filter (fun e => e.1 = v || e.2 = v)).length

/-- Neighbour set of `v` as a list (igraph `g.neighbors(v)`). -/
def Graph.neighborsOf (g : Graph) (v : Nat) : List Nat :=
  g.edges.filterMap (fun e =>
    if e.1 = v then some e.2 else if e.2 = v then some e.1 else none)

/-- Adjacency test, insensitive to edge orientation. -/
def Graph.adjB (g : Graph) (u v : Nat) : Bool :=
  g.edges.contains (u, v) || g.edges.contains (v, u)

/-- One step of reachability closure: every vertex already reached or
adjacent to a reached vertex. -/
def Graph.reachStep (g : Graph) (cur : List Nat) : List Nat :=
  (List.range g.n).filter (fun u => cur.contains u || cur.any (fun w => g.adjB w u))

/-- Vertices reachable from `v`, as a sorted list: `g.n` closure steps
suffice since a shortest path has fewer than `g.n` edges. -/
def Graph.reachFrom (g : Graph) (v : Nat) : List Nat :=
  Nat.iterate (g.reachStep) g.n [v]

/-- Connected components (igraph `g.components()`): scanning vertices in
increasing order, each new component is listed once, its vertices in
increasing order — the order igraph's `VertexClustering` produces. -/
def Graph.components (g : Graph) : List (List Nat) :=
  (List.range g.n).foldl
    (fun acc v => if acc.any (fun c => c.contains v) then acc else acc ++ [g.reachFrom v]) []

/-- `len(g.components())`. -/
def Graph.ncomponents (g : Graph) : Nat := g.components.length

/-- Induced subgraph on the vertex list `vs` (igraph `g.subgraph(vs)`):
vertex `i` of the subgraph is `vs[i]`, the `ids` attribute is carried
over, and exactly the edges with both endpoints in `vs` are kept. -/
def Graph.subgraphOn (g : Graph) (vs : List Nat) : Graph :=
  { n := vs.length
  , ids := vs.map (fun v => g.ids.getD v 0)
  , edges := (List.range vs.length).flatMap (fun i =>
      (List.range vs.length).filterMap (fun j =>
        if i < j && g.adjB (vs.getD i 0) (vs.getD j 0) then some (i, j) else none)) }

/-- `g.delete_edges(es)`: batch removal of the listed edges. -/
def Graph.deleteEdges (g : Graph) (es : List (Nat × Nat)) : Graph :=
  { g with edges := g.edges.filter (fun e => !es.contains e) }

/-- `is_strong_community(G, nodes)` (radicchi.py lines 127–139): every
vertex of `nodes` must have strictly more edges inside the induced
subgraph than outside.  The early-`return False` loop is an `all`.
Out of scope of any guard, an empty `nodes` runs the loop zero times
and returns `True`. -/
def is_strong_community (G : Graph) (nodes : List Nat) : Bool :=
  let subgraph := G.subgraphOn nodes
  let degree := nodes.map (fun v => (G.degreeOf v : Int))
  let community_degree := (List.range nodes.length).map (fun i => (subgraph.degreeOf i : Int))
  (List.range nodes.length).all (fun i =>
    !(community_degree.getD i 0 ≤ degree.getD i 0 - community_degree.getD i 0))

/-- `is_weak_community(G, nodes)` (radicchi.py lines 141–153): the sum of
internal degrees must exceed the sum of external degrees.  An empty
`nodes` gives `0 > 0`, i.e. `False`. -/
def is_weak_community (G : Graph) (nodes : List Nat) : Bool :=
  let subgraph := G.subgraphOn nodes
  let degree := nodes.map (fun v => (G.degreeOf v : Int))
  let indegree := (List.range nodes.length).map (fun i => (subgraph.degreeOf i : Int))
  let tsum := degree.sum
  let insum := indegree.sum
  decide (insum > tsum - insum)

/-- Score values: `none` is `float('inf')`, `some q` a finite score. -/
abbrev SVal := Option ℚ

/-- Strict order on scores, `+inf` greater than every finite value
(IEEE comparison on the values the algorithm produces). -/
def sLt : SVal → SVal → Bool
  | some a, some b => decide (a < b)
  | some _, none => true
  | none, _ => false

/-- Python truthiness of a float score: `0.0` is falsy, `inf` and every
other value truthy.  `not min_ecc` on a *set* score is this test. -/
def isZeroScore : SVal → Bool
  | some q => decide (q = 0)
  | none => false

/-- The numerator/denominator of `edge_clustering_coefficient_3`:
`min(degree[u]-1, degree[v]-1)` over Python integers. -/
def mdeg3 (u v : Nat) (degree : Nat → Int) : Int :=
  min (degree u - 1) (degree v - 1)

/-- `edge_clustering_coefficient_3` (radicchi.py lines 155–167): the
triangle-based coefficient `(|N(u) ∩ N(v)| + 1) / min(deg u - 1, deg v - 1)`,
`+inf` when the denominator is zero. -/
def edge_clustering_coefficient_3 (u v : Nat) (degree : Nat → Int)
    (neighbors : Nat → List Nat) : SVal :=
  let mdeg := mdeg3 u v degree
  if mdeg = 0 then none
  else
    let cdeg := ((neighbors u).filter (fun w => (neighbors v).contains w)).length
    some (Rat.divInt ((cdeg : Int) + 1) mdeg)

/-- The denominator of `edge_clustering_coefficient_4`:
`(degree[u]-1) * (degree[v]-1)` over Python integers. -/
def mdeg4 (u v : Nat) (degree : Nat → Int) : Int :=
  (degree u - 1) * (degree v - 1)

/-- `edge_clustering_coefficient_4` (radicchi.py lines 169–187): the
square-based coefficient `(#squares + 1) / ((deg u - 1)(deg v - 1))`,
`+inf` when the denominator is zero. -/
def edge_clustering_coefficient_4 (u v : Nat) (degree : Nat → Int)
    (neighbors : Nat → List Nat) : SVal :=
  let mdeg := mdeg4 u v degree
  if mdeg = 0 then none
  else
    let uneighbors := (neighbors u).filter (fun y => y ≠ v)
    let vneighbors := (neighbors v).filter (fun y => y ≠ u)
    let num_squares := (uneighbors.map (fun w =>
      (((neighbors w).filter (fun y => y ≠ u)).filter
        (fun x => vneighbors.contains x)).length)).sum
    some (Rat.divInt ((num_squares : Int) + 1) mdeg)

/-- The scorer bound by `clustering` (radicchi.py lines 40–43):
`3` selects the triangle-based scorer, anything else the square-based. -/
def eccDispatch (clustering : Nat) :
    Nat → Nat → (Nat → Int) → (Nat → List Nat) → SVal :=
  if clustering = 3 then edge_clustering_coefficient_3 else edge_clustering_coefficient_4

/-- One step of the minimum-score scan (radicchi.py lines 51–57).  The
accumulator holds the tied minimum edges found so far and `min_ecc`
(`none` before the first edge is seen).  The test
`not min_ecc or ecc < min_ecc` is modelled with Python's float
truthiness: an unset (`None`) or zero score restarts the collection. -/
def minStep (score : Nat × Nat → SVal)
    (acc : List (Nat × Nat) × Option SVal) (e : Nat × Nat) :
    List (Nat × Nat) × Option SVal :=
  let ecc := score e
  match acc with
  | (_, none) => ([e], some ecc)
  | (mes, some m) =>
    if isZeroScore m || sLt ecc m then ([e], some ecc)
    else if ecc = m then (mes ++ [e], some m)
    else (mes, some m)

/-- The full scan `for e in edges: …` collecting all edges tied at the
minimum score, in iteration order. -/
def findMinEdges (score : Nat × Nat → SVal) (el : List (Nat × Nat)) :
    List (Nat × Nat) × Option SVal :=
  el.foldl (minStep score) ([], none)

/-- `neighbors[a].discard(b)` as a pointwise update of the
neighbour-set array. -/
def nupd (a b : Nat) (nb : Nat → List Nat) : Nat → List Nat :=
  fun x => if x = a then (nb x).filter (fun y => y ≠ b) else nb x

/-- `degree[a] -= 1` as a pointwise update of the degree array. -/
def dupd (a : Nat) (dg : Nat → Int) : Nat → Int :=
  fun x => if x = a then dg x - 1 else dg x

/-- The per-edge bookkeeping update of radicchi.py lines 60–64:
`edges.discard(e)`, then `neighbors[u].discard(v)`,
`neighbors[v].discard(u)`, then `degree[u] -= 1`, `degree[v] -= 1`,
applied in the source's order. -/
def discardUpd (st : List (Nat × Nat) × (Nat → List Nat) × (Nat → Int))
    (e : Nat × Nat) : List (Nat × Nat) × (Nat → List Nat) × (Nat → Int) :=
  (st.1.erase e, nupd e.2 e.1 (nupd e.1 e.2 st.2.1), dupd e.2 (dupd e.1 st.2.2))

/-- `degree = g.degree()` at entry of `radicchi_internal` (line 35). -/
def initDegree (g : Graph) : Nat → Int := fun v => (g.degreeOf v : Int)

/-- `neighbors = [set(g.neighbors(v)) for v in g.vs]` (line 36). -/
def initNeighbors (g : Graph) : Nat → List Nat := fun v => g.neighborsOf v

/-- The result of `prune_components` (radicchi.py lines 110–125): the
three payload fields are `None` unless pruning fired. -/
structure PruneResult where
  pruned : Bool
  orig_communities : Option (List (List Nat))
  new_communities : Option (List (List Nat))
  remaining : Option (List Nat)
deriving Repr, DecidableEq

/-- `prune_components(orig, new, community_measure)` (radicchi.py lines
95–125).  Components of the working graph are mapped to original ids
through the `ids` attribute and tested with the measure's predicate;
with two or more accepted components the result carries the accepted
groups and the remaining working vertices (the Python
`list(set(range(n)) - set(...))` is order-unspecified; the embedding
enumerates it in increasing order). -/
def prune_components (orig : Graph) (new : Graph) (community_measure : String) : PruneResult :=
  let components := new.components
  let ids := new.ids
  let new_components := components
  let orig_components := new_components.map (fun c => c.map (fun v => ids.getD v 0))
  let is_community := if community_measure = "strong" then is_strong_community else is_weak_community
  let community_indices := (List.range orig_components.length).filter
    (fun i => is_community orig (orig_components.getD i []))
  let orig_communities := community_indices.map (fun i => orig_components.getD i [])
  let new_communities := community_indices.map (fun i => new_components.getD i [])
  if community_indices.length > 1 then
    let all_new_community_nodes := new_communities.flatten
    let all_new_remaining_nodes := (List.range new.n).filter
      (fun v => !all_new_community_nodes.contains v)
    ⟨true, some orig_communities, some new_communities, some all_new_remaining_nodes⟩
  else
    ⟨false, none, none, none⟩

/-- An enumeration order for the Python set `edges`: a function that
reorders the canonical edge list.  `fun l => l` is the canonical
order. -/
abbrev OrdFn := List (Nat × Nat) → List (Nat × Nat)

/-- `for i,c in enumerate(new_communities): …` (radicchi.py lines
76–82), abstracted over the recursive call `recurse` (which receives
the shared original graph and a working-vertex group and returns the
subcommunities together with the original graph as the recursion left
it).  An empty recursive result keeps `orig_communities[i]` whole;
otherwise the subcommunities are appended. -/
def assembleCommunities (recurse : Graph → List Nat → List (List Nat) × Graph)
    (ocs ncs : List (List Nat)) (orig0 : Graph) : List (List Nat) × Graph :=
  let r := ncs.foldl
    (fun (acc : List (List Nat) × Graph × Nat) c =>
      let res := recurse acc.2.1 c
      ((if res.1.isEmpty then acc.1 ++ [ocs.getD acc.2.2 []] else acc.1 ++ res.1),
        res.2, acc.2.2 + 1))
    ([], orig0, 0)
  (r.1, r.2.1)

/-- The body of `radicchi_internal` (radicchi.py lines 27–93), fuelled.
Arguments after the fuel: the shared original graph, the working graph
`g`, and the loop-carried bookkeeping `degree`, `neighbors`, `edges`
and `n_components` (initialised from `g` by the wrapper below, carried
across loop iterations exactly as the source mutates them in place).
Returns the community list together with the final working graph and
the original graph as the call leaves it.  The loop-continue and the
recursive calls both consume one unit of fuel; the top-level wrapper
supplies more fuel than any run can use, and exhausted fuel returns the
empty result.  The recursive calls pass `measure` but — exactly as the
source does on lines 78 and 86 — omit `clustering`, so it takes the
declared default `3` at every recursion level. -/
def radicchi_go (ord : OrdFn) :
    Nat → Graph → Graph → (Nat → Int) → (Nat → List Nat) → List (Nat × Nat) →
    Nat → Nat → String → Nat → List (List Nat) × Graph × Graph
  | 0, orig, g, _, _, _, _, _, _, _ => ([], g, orig)
  | fuel + 1, orig, g, degree, neighbors, edges, n_components, level, measure, clustering =>
    let ecc_fun := eccDispatch clustering
    if edges.isEmpty then ([], g, orig)
    else
      let score := fun (e : Nat × Nat) => ecc_fun e.1 e.2 degree neighbors
      let min_edges := (findMinEdges score (ord edges)).1
      let g2 := g.deleteEdges min_edges
      let upd := min_edges.foldl discardUpd (edges, neighbors, degree)
      let n_components_new := g2.ncomponents
      if n_components_new > n_components then
        let result := prune_components orig g2 measure
        if result.pruned then
          let ocs := result.orig_communities.getD []
          let ncs := result.new_communities.getD []
          let remaining := result.remaining.getD []
          let recurse := fun (o : Graph) (c : List Nat) =>
            let s := g2.subgraphOn c
            let res := radicchi_go ord fuel o s (initDegree s) (initNeighbors s)
              s.edges s.ncomponents (level + 1) measure 3
            (res.1, res.2.2)
          let ac := assembleCommunities recurse ocs ncs orig
          let orig_remaining := remaining.map (fun i => g2.ids.getD i 0)
          let r := g2.subgraphOn remaining
          let resR := radicchi_go ord fuel ac.2 r (initDegree r) (initNeighbors r)
            r.edges r.ncomponents (level + 1) measure 3
          let clustered := resR.1.flatten
          let isolated_remaining := orig_remaining.filter (fun i => !clustered.contains i)
          (ac.1 ++ isolated_remaining.map (fun i => [i]), g2, resR.2.2)
        else
          radicchi_go ord fuel orig g2 upd.2.2 upd.2.1 upd.1 n_components_new
            level measure clustering
      else
        radicchi_go ord fuel orig g2 upd.2.2 upd.2.1 upd.1 n_components
          level measure clustering

/-- `radicchi_internal(G, g, level, measure, clustering)` — the entry of
each call derives `degree`, `neighbors`, `edges` and `n_components`
from the working graph (radicchi.py lines 35–38) and runs the loop. -/
def radicchi_internal (ord : OrdFn) (fuel : Nat) (orig : Graph) (g : Graph)
    (level : Nat) (measure : String) (clustering : Nat) :
    List (List Nat) × Graph × Graph :=
  radicchi_go ord fuel orig g (initDegree g) (initNeighbors g) g.edges g.ncomponents
    level measure clustering

/-- Fuel supplied to the top-level call: strictly more than the length
of any chain of loop iterations (each deletes at least one edge) and
recursive calls (each strictly shrinks the working graph). -/
def radicchiFuel (G : Graph) : Nat := (G.n + 2) * (G.edges.length + 2)

/-- CoverBuilder (radicchi.py lines 20–23): `clustering = [0]*G.vcount()`
then `clustering[v] = i` for each vertex `v` of the `i`-th community.
The index is carried explicitly, modelling `enumerate`. -/
def buildClustering (n : Nat) (result : List (List Nat)) : List Nat :=
  (result.foldl
    (fun (acc : List Nat × Nat) l =>
      (l.foldl (fun c v => c.set v acc.2) acc.1, acc.2 + 1))
    (List.replicate n 0, 0)).1

/-- The community groups computed by the top-level `radicchi` call
before label assignment: the dispatch of radicchi.py lines 13–18. -/
def radicchiGroups (ord : OrdFn) (G : Graph) (measure : String) : List (List Nat) :=
  let g : Graph := { G with ids := List.range G.n }
  if measure = "weak" then
    (radicchi_internal ord (radicchiFuel G) G g 0 measure 4).1
  else if measure = "strong" then
    (radicchi_internal ord (radicchiFuel G) G g 0 measure 3).1
  else []

/-- `radicchi(G, measure)` (radicchi.py lines 6–25) with an explicit
edge-enumeration order: copy and tag the graph, dispatch on the
measure (anything else raises), run the recursion and build the
per-vertex label list (the membership vector of the returned
`VertexClustering`). -/
def radicchiWithOrd (ord : OrdFn) (G : Graph) (measure : String) :
    Except String (List Nat) :=
  if measure = "weak" || measure = "strong" then
    Except.ok (buildClustering G.n (radicchiGroups ord G measure))
  else
    Except.error "Other measures of community not yet supported"

/-- `radicchi(G, measure)` under the canonical edge enumeration. -/
def radicchi (G : Graph) (measure : String) : Except String (List Nat) :=
  radicchiWithOrd (fun l => l) G measure

/-- Modelled from the spec: "Two variants, selected once per top-level
invocation and held fixed through all recursion" — the same loop as
`radicchi_go`, except that the recursive calls on lines 78 and 86 pass
the `clustering` variant bound at entry instead of letting it fall back
to the default `3`.  This definition exists only to be compared with
the faithful `radicchi_go`. -/
def radicchi_go_held (ord : OrdFn) :
    Nat → Graph → Graph → (Nat → Int) → (Nat → List Nat) → List (Nat × Nat) →
    Nat → Nat → String → Nat → List (List Nat) × Graph × Graph
  | 0, orig, g, _, _, _, _, _, _, _ => ([], g, orig)
  | fuel + 1, orig, g, degree, neighbors, edges, n_components, level, measure, clustering =>
    let ecc_fun := eccDispatch clustering
    if edges.isEmpty then ([], g, orig)
    else
      let score := fun (e : Nat × Nat) => ecc_fun e.1 e.2 degree neighbors
      let min_edges := (findMinEdges score (ord edges)).1
      let g2 := g.deleteEdges min_edges
      let upd := min_edges.foldl discardUpd (edges, neighbors, degree)
      let n_components_new := g2.ncomponents
      if n_components_new > n_components then
        let result := prune_components orig g2 measure
        if result.pruned then
          let ocs := result.orig_communities.getD []
          let ncs := result.new_communities.getD []
          let remaining := result.remaining.getD []
          let recurse := fun (o : Graph) (c : List Nat) =>
            let s := g2.subgraphOn c
            let res := radicchi_go_held ord fuel o s (initDegree s) (initNeighbors s)
              s.edges s.ncomponents (level + 1) measure clustering
            (res.1, res.2.2)
          let ac := assembleCommunities recurse ocs ncs orig
          let orig_remaining := remaining.map (fun i => g2.ids.getD i 0)
          let r := g2.subgraphOn remaining
          let resR := radicchi_go_held ord fuel ac.2 r (initDegree r) (initNeighbors r)
            r.edges r.ncomponents (level + 1) measure clustering
          let clustered := resR.1.flatten
          let isolated_remaining := orig_remaining.filter (fun i => !clustered.contains i)
          (ac.1 ++ isolated_remaining.map (fun i => [i]), g2, resR.2.2)
        else
          radicchi_go_held ord fuel orig g2 upd.2.2 upd.2.1 upd.1 n_components_new
            level measure clustering
      else
        radicchi_go_held ord fuel orig g2 upd.2.2 upd.2.1 upd.1 n_components
          level measure clustering

/-- Modelled from the spec: the top-level dispatch with the scorer
variant held fixed through all recursion levels (cf. `radicchi`). -/
def radicchi_held (G : Graph) (measure : String) : Except String (List Nat) :=
  let g : Graph := { G with ids := List.range G.n }
  if measure = "weak" then
    Except.ok (buildClustering G.n
      (radicchi_go_held (fun l => l) (radicchiFuel G) G g (initDegree g) (initNeighbors g)
        g.edges g.ncomponents 0 measure 4).1)
  else if measure = "strong" then
    Except.ok (buildClustering G.n
      (radicchi_go_held (fun l => l) (radicchiFuel G) G g (initDegree g) (initNeighbors g)
        g.edges g.ncomponents 0 measure 3).1)
  else Except.error "Other measures of community not yet supported"

/-- Labels assign a singleton community to every vertex: what claim C2
asserts of zero-edge graphs. -/
def isSingletonPerVertex (n : Nat) (labels : List Nat) : Prop :=
  labels.length = n ∧
    ∀ i j, i < n → j < n → i ≠ j → labels.getD i 0 ≠ labels.getD j 0

/-- Two triangle-plus-pendant / two-triangles-with-bridge blobs joined
by a bridge between the two pendant structures: a graph on which the
weak run recurses and the recursion's scorer choice is observable. -/
def c1Graph : Graph :=
  ⟨10, [], [(0, 1), (0, 2), (1, 2), (0, 3), (4, 5), (4, 6), (5, 6),
            (6, 7), (7, 8), (7, 9), (8, 9), (3, 6)]⟩

/-- A two-vertex graph with no edges. -/
def c2Graph : Graph := ⟨2, [], []⟩

/-- A two-vertex one-edge graph used to evaluate the predicates on the
empty subset. -/
def c3Graph : Graph := ⟨2, [], [(0, 1)]⟩

/-- The spec's worked example: two triangles joined by the bridge
`(2,3)`. -/
def bridgeGraph : Graph :=
  ⟨6, [], [(0, 1), (0, 2), (1, 2), (2, 3), (3, 4), (3, 5), (4, 5)]⟩

/-- The two-triangle bridge graph after the bridge has been removed:
the working graph at the moment `prune_components` fires. -/
def bridgeSplitGraph : Graph :=
  ⟨6, [0, 1, 2, 3, 4, 5], [(0, 1), (0, 2), (1, 2), (3, 4), (3, 5), (4, 5)]⟩

/-- The recursive call sites inside `radicchi_go` are exactly
`radicchi_internal` at the next level with `clustering` at the value
`3` the source's omitted optional argument defaults to. -/
theorem radicchi_go_recursive_call_eq (ord : OrdFn) (fuel : Nat) (o s : Graph)
    (level : Nat) (measure : String) :
    radicchi_go ord fuel o s (initDegree s) (initNeighbors s) s.edges s.ncomponents
      level measure 3 = radicchi_internal ord fuel o s level measure 3 := rfl

/-- C1: the claim says a `'weak'` top-level call scores edges with the
SquareBased coefficient at every recursion depth.  The code binds
`clustering=4` only at the top level; the recursive calls on lines 78
and 86 omit the argument, which therefore falls back to its default
`3` (TriangleBased).  On `c1Graph` the faithful embedding and the
spec's held-variant embedding return different partitions under
measure `'weak'`, so at least one recursion-level edge was scored with
the TriangleBased coefficient. -/
theorem c1_weak_recursion_not_square_based :
    radicchi c1Graph "weak" = Except.ok [0, 0, 0, 2, 1, 1, 1, 3, 3, 3]
    ∧ radicchi_held c1Graph "weak" = Except.ok [0, 0, 0, 0, 0, 0, 0, 1, 1, 1]
    ∧ radicchi c1Graph "weak" ≠ radicchi_held c1Graph "weak" := by
  refine ⟨rfl, rfl, ?_⟩
  intro h
  have h2 : ([0, 0, 0, 2, 1, 1, 1, 3, 3, 3] : List Nat)
      = [0, 0, 0, 0, 0, 0, 0, 1, 1, 1] := by
    have hl : (Except.ok [0, 0, 0, 2, 1, 1, 1, 3, 3, 3] : Except String (List Nat))
        = Except.ok [0, 0, 0, 0, 0, 0, 0, 1, 1, 1] := by
      calc (Except.ok [0, 0, 0, 2, 1, 1, 1, 3, 3, 3] : Except String (List Nat))
          = radicchi c1Graph "weak" := rfl
        _ = radicchi_held c1Graph "weak" := h
        _ = Except.ok [0, 0, 0, 0, 0, 0, 0, 1, 1, 1] := rfl
    injection hl
  exact absurd h2 (by decide)

/-- C2 counterexample: on the zero-edge two-vertex graph the top-level
call returns the all-zero labelling — both vertices share community
`0`, so the clustering is not one singleton community per vertex. -/
theorem c2_counterexample :
    radicchi c2Graph "weak" = Except.ok [0, 0]
    ∧ ¬ isSingletonPerVertex c2Graph.n [0, 0] := by
  refine ⟨rfl, ?_⟩
  intro ⟨_, h⟩
  exact absurd (h 0 1 (by decide) (by decide) (by decide)) (by decide)

/-- C2 amended: for every graph with at least one vertex and zero
edges, the top-level `radicchi` call (either measure) returns the
all-zero labelling: every vertex is placed in the single community
`0`, not in a singleton of its own. -/
theorem c2_amended (G : Graph) (m : String) (hn : 1 ≤ G.n)
    (hm : m = "weak" ∨ m = "strong") (he : G.edges = []) :
    radicchi G m = Except.ok (List.replicate G.n 0) := by
  obtain ⟨k, hk⟩ : ∃ k, radicchiFuel G = k + 1 := by
    have hpos : 0 < radicchiFuel G := Nat.mul_pos (by omega) (by omega)
    exact ⟨radicchiFuel G - 1, by omega⟩
  have hE : ({ G with ids := List.range G.n } : Graph).edges = [] := he
  have hgo : ∀ (meas : String) (cl : Nat),
      (radicchi_internal (fun l => l) (radicchiFuel G) G
        { G with ids := List.range G.n } 0 meas cl).1 = [] := by
    intro meas cl
    rw [radicchi_internal, hk]
    simp only [radicchi_go]
    rw [hE]
    rfl
  rcases hm with hm | hm <;> subst hm
  · calc radicchi G "weak"
        = Except.ok (buildClustering G.n ((radicchi_internal (fun l => l)
            (radicchiFuel G) G { G with ids := List.range G.n } 0 "weak" 4).1)) := rfl
      _ = Except.ok (List.replicate G.n 0) := by rw [hgo]; rfl
  · calc radicchi G "strong"
        = Except.ok (buildClustering G.n ((radicchi_internal (fun l => l)
            (radicchiFuel G) G { G with ids := List.range G.n } 0 "strong" 3).1)) := rfl
      _ = Except.ok (List.replicate G.n 0) := by rw [hgo]; rfl

/-- C2 amended, at a concrete input: the three-vertex zero-edge graph
has a vertex and no edges, and its weak run labels every vertex `0`. -/
theorem c2_amended_witness :
    (1 ≤ (⟨3, [], []⟩ : Graph).n ∧ (⟨3, [], []⟩ : Graph).edges = [])
    ∧ radicchi ⟨3, [], []⟩ "weak" = Except.ok (List.replicate 3 0) :=
  ⟨⟨by decide, rfl⟩, c2_amended ⟨3, [], []⟩ "weak" (by decide) (Or.inl rfl) rfl⟩

/-- C3 counterexample: evaluated on the empty vertex subset, neither
predicate raises anything — `is_strong_community` returns the plain
boolean `true` (the per-vertex loop runs zero times) and
`is_weak_community` returns the plain boolean `false` (`0 > 0`),
contradicting the claimed `InvalidCommunity` guard, which does not
exist in the code. -/
theorem c3_counterexample :
    is_strong_community c3Graph [] = true ∧ is_weak_community c3Graph [] = false :=
  ⟨rfl, rfl⟩

/-- C3 amended: for every graph, evaluating the Strong predicate on the
empty vertex subset returns `true` (a vacuous pass) and the Weak
predicate returns `false`; no error of any kind is raised. -/
theorem c3_amended (G : Graph) :
    is_strong_community G [] = true ∧ is_weak_community G [] = false :=
  ⟨rfl, rfl⟩

/-- C6: every measure other than `'weak'` and `'strong'` makes the
top-level call return the rejection error immediately — the result is
the bare error value, so no edge removal, recursion or labelling has
contributed to it. -/
theorem c6_invalid_measure (G : Graph) (measure : String)
    (h1 : measure ≠ "weak") (h2 : measure ≠ "strong") :
    radicchi G measure = Except.error "Other measures of community not yet supported" := by
  rw [radicchi, radicchiWithOrd]
  simp [h1, h2]

/-- C6 at a concrete input: the measure `'fast'` is neither recognised
value and is rejected on a one-vertex graph. -/
theorem c6_invalid_measure_witness :
    (("fast" : String) ≠ "weak" ∧ ("fast" : String) ≠ "strong")
    ∧ radicchi ⟨1, [], []⟩ "fast"
        = Except.error "Other measures of community not yet supported" :=
  ⟨⟨by decide, by decide⟩, c6_invalid_measure ⟨1, [], []⟩ "fast" (by decide) (by decide)⟩

/-- Writing one community's label into the array preserves its length. -/
theorem setLabels_length (l : List Nat) (i : Nat) (acc : List Nat) :
    (l.foldl (fun c v => c.set v i) acc).length = acc.length := by
  induction l generalizing acc with
  | nil => rfl
  | cons a l ih => rw [List.foldl_cons, ih, List.length_set]

/-- Writing one community's label leaves positions outside that
community untouched. -/
theorem setLabels_getD_of_not_mem (l : List Nat) (i v : Nat) (acc : List Nat)
    (h : v ∉ l) :
    (l.foldl (fun c w => c.set w i) acc).getD v 0 = acc.getD v 0 := by
  induction l generalizing acc with
  | nil => rfl
  | cons a l ih =>
    rw [List.foldl_cons, ih _ (fun hm => h (List.mem_cons_of_mem a hm))]
    have hv : a ≠ v := fun hav => h (hav ▸ List.mem_cons_self a l)
    rw [List.getD_eq_getElem?_getD, List.getElem?_set_ne hv,
      ← List.getD_eq_getElem?_getD]

/-- The label array built by CoverBuilder always has one slot per
original vertex. -/
theorem buildClustering_length (n : Nat) (result : List (List Nat)) :
    (buildClustering n result).length = n := by
  have key : ∀ (res : List (List Nat)) (acc : List Nat × Nat),
      ((res.foldl (fun (acc : List Nat × Nat) l =>
        (l.foldl (fun c v => c.set v acc.2) acc.1, acc.2 + 1)) acc).1).length
        = acc.1.length := by
    intro res
    induction res with
    | nil => intro acc; rfl
    | cons l res ih =>
      intro acc
      rw [List.foldl_cons, ih]
      exact setLabels_length l acc.2 acc.1
  rw [buildClustering, key]
  exact List.length_replicate n 0

/-- A vertex contained in none of the groups keeps the initialisation
value `0` of `clustering = [0]*G.vcount()`. -/
theorem buildClustering_getD_of_not_mem (n : Nat) (result : List (List Nat)) (v : Nat)
    (h : ∀ l ∈ result, v ∉ l) :
    (buildClustering n result).getD v 0 = 0 := by
  have key : ∀ (res : List (List Nat)) (acc : List Nat × Nat), (∀ l ∈ res, v ∉ l) →
      ((res.foldl (fun (acc : List Nat × Nat) l =>
        (l.foldl (fun c v => c.set v acc.2) acc.1, acc.2 + 1)) acc).1).getD v 0
        = acc.1.getD v 0 := by
    intro res
    induction res with
    | nil => intro acc _; rfl
    | cons l res ih =>
      intro acc hh
      rw [List.foldl_cons, ih _ (fun l' hl' => hh l' (List.mem_cons_of_mem _ hl'))]
      exact setLabels_getD_of_not_mem l acc.2 v acc.1 (hh l (List.mem_cons_self _ _))
  rw [buildClustering, key _ _ h]
  rw [List.getD_eq_getElem?_getD, List.getElem?_replicate]
  split <;> rfl

/-- C9: whenever the top-level call succeeds, the returned labelling
has exactly one label slot per original vertex, and a vertex appearing
in none of the recursion's output groups silently keeps label `0`
(i.e. it is merged into the first community) rather than being left
out or raising an error. -/
theorem c9_labels_default_zero (G : Graph) (m : String) (labels : List Nat)
    (h : radicchi G m = Except.ok labels) :
    labels.length = G.n ∧
      ∀ v, v < G.n → (∀ c ∈ radicchiGroups (fun l => l) G m, v ∉ c) →
        labels.getD v 0 = 0 := by
  rw [radicchi, radicchiWithOrd] at h
  split at h
  · injection h with h'
    subst h'
    exact ⟨buildClustering_length _ _,
      fun v _ hnot => buildClustering_getD_of_not_mem _ _ _ hnot⟩
  · exact absurd h (by simp)

/-- C9 at a concrete input: on the two-triangle bridge graph the
strong run returns the labelling `[0, 0, 0, 1, 1, 1]`, which has one
slot per vertex and (vacuously here, every vertex being grouped)
defaults ungrouped vertices to `0`. -/
theorem c9_labels_default_zero_witness :
    radicchi bridgeGraph "strong" = Except.ok [0, 0, 0, 1, 1, 1]
    ∧ (([0, 0, 0, 1, 1, 1] : List Nat).length = bridgeGraph.n
        ∧ ∀ v, v < bridgeGraph.n →
            (∀ c ∈ radicchiGroups (fun l => l) bridgeGraph "strong", v ∉ c) →
            ([0, 0, 0, 1, 1, 1] : List Nat).getD v 0 = 0) :=
  ⟨rfl, c9_labels_default_zero bridgeGraph "strong" [0, 0, 0, 1, 1, 1] rfl⟩

/-- Counting the index positions of `l` whose entry satisfies `p`
equals counting the entries of `l` satisfying `p`. -/
theorem countP_range_getD (l : List (List Nat)) (p : List Nat → Bool) :
    (List.range l.length).countP (fun i => p (l.getD i [])) = l.countP p := by
  induction l with
  | nil => rfl
  | cons a l ih =>
    rw [List.length_cons, List.range_succ_eq_map, List.countP_cons, List.countP_map]
    have h1 : ((fun i => p ((a :: l).getD i [])) ∘ Nat.succ)
        = fun i => p (l.getD i []) := by
      funext i
      simp [Function.comp, List.getD_cons_succ]
    rw [h1, ih, List.countP_cons]
    simp [List.getD_cons_zero]

/-- C7: pruning fires exactly when at least two connected components of
the working graph satisfy the predicate bound to the measure; when it
fires, the remaining set consists of exactly the working vertices
lying in no confirmed community, and when it does not fire the result
is marked unpruned with empty payload (the caller then continues the
edge-removal loop, as `radicchi_go` does on its unpruned branch). -/
theorem c7_prune_characterisation (orig g : Graph) (m : String) :
    ((prune_components orig g m).pruned = true
      ↔ 2 ≤ (g.components.filter (fun c =>
          (if m = "strong" then is_strong_community else is_weak_community) orig
            (c.map (fun v => g.ids.getD v 0)))).length)
    ∧ ((prune_components orig g m).pruned = true →
        ∃ ncs rem, (prune_components orig g m).new_communities = some ncs
          ∧ (prune_components orig g m).remaining = some rem
          ∧ ∀ v, v ∈ rem ↔ (v < g.n ∧ ∀ c ∈ ncs, v ∉ c))
    ∧ ((prune_components orig g m).pruned = false →
        (prune_components orig g m).orig_communities = none
        ∧ (prune_components orig g m).new_communities = none
        ∧ (prune_components orig g m).remaining = none) := by
  simp only [prune_components]
  generalize (if m = "strong" then is_strong_community else is_weak_community) = isc
  have hcount : ((List.range (g.components.map
        (fun c => c.map (fun v => g.ids.getD v 0))).length).filter
        (fun i => isc orig
          ((g.components.map (fun c => c.map (fun v => g.ids.getD v 0))).getD i []))).length
      = (g.components.filter (fun c =>
          isc orig (c.map (fun v => g.ids.getD v 0)))).length := by
    rw [← List.countP_eq_length_filter, countP_range_getD, List.countP_map,
      ← List.countP_eq_length_filter]
    rfl
  split
  case isTrue h =>
    refine ⟨iff_of_true rfl (by rw [← hcount]; omega), ?_, ?_⟩
    · intro _
      refine ⟨_, _, rfl, rfl, ?_⟩
      intro v
      simp only [List.mem_filter, List.mem_range, List.mem_flatten]
      simp [List.mem_filter, List.mem_range, List.mem_flatten]
      intro _
      constructor
      · intro hA c x hx hacc heq
        subst heq
        exact hA x hx hacc
      · intro hB x hx hacc
        exact hB _ x hx hacc rfl
    · intro hfalse
      simp at hfalse
  case isFalse h =>
    refine ⟨iff_of_false (by simp) (by rw [← hcount]; omega), ?_, ?_⟩
    · intro htrue
      simp at htrue
    · intro _
      exact ⟨rfl, rfl, rfl⟩

/-- C7 at a concrete input: on the split two-triangle graph both
triangle components are strong communities of the original bridge
graph, so pruning fires. -/
theorem c7_prune_characterisation_witness :
    (prune_components bridgeGraph bridgeSplitGraph "strong").pruned = true :=
  (c7_prune_characterisation bridgeGraph bridgeSplitGraph "strong").1.mpr (by decide)

/-- The triangle scorer never returns the finite score `0`: its
numerator `|N(u) ∩ N(v)| + 1` is a strictly positive integer. -/
theorem ecc3_ne_zero (u v : Nat) (degree : Nat → Int) (nb : Nat → List Nat) :
    edge_clustering_coefficient_3 u v degree nb ≠ some 0 := by
  simp only [edge_clustering_coefficient_3]
  split
  · exact fun h => Option.noConfusion h
  case isFalse hm =>
    intro h
    injection h with h0
    have hnum := (Rat.divInt_eq_zero hm).mp h0
    have hge : (0 : Int) ≤
        ((((nb u).filter (fun w => (nb v).contains w)).length : Nat) : Int) :=
      Int.natCast_nonneg _
    omega

/-- The square scorer never returns the finite score `0`: its numerator
`#squares + 1` is a strictly positive integer. -/
theorem ecc4_ne_zero (u v : Nat) (degree : Nat → Int) (nb : Nat → List Nat) :
    edge_clustering_coefficient_4 u v degree nb ≠ some 0 := by
  simp only [edge_clustering_coefficient_4]
  split
  · exact fun h => Option.noConfusion h
  case isFalse hm =>
    intro h
    injection h with h0
    have hnum := (Rat.divInt_eq_zero hm).mp h0
    have hge : (0 : Int) ≤ ((((nb u).filter (fun y => y ≠ v)).map (fun w =>
        (((nb w).filter (fun y => y ≠ u)).filter
          (fun x => ((nb v).filter (fun y => y ≠ u)).contains x)).length)).sum : Nat) :=
      Int.natCast_nonneg _
    omega

/-- A score that is not the finite `0` is never confused with Python's
falsy `0.0` by the truthiness test. -/
theorem isZeroScore_eq_false_of_ne (s : SVal) (h : s ≠ some 0) :
    isZeroScore s = false := by
  cases s with
  | none => rfl
  | some q =>
    simp only [isZeroScore, decide_eq_false_iff_not]
    exact fun h0 => h (by rw [h0])

/-- Positivity of a `divInt` with positive numerator and denominator,
together with the `1/denominator` lower bound. -/
theorem divInt_pos_and_lb (a m : Int) (ha : 1 ≤ a) (hm : 0 < m) :
    0 < Rat.divInt a m ∧ Rat.divInt 1 m ≤ Rat.divInt a m := by
  constructor
  · have h0 : (0 : ℚ) ≤ Rat.divInt a m := Rat.divInt_nonneg (by omega) (by omega)
    rcases lt_or_eq_of_le h0 with h | h
    · exact h
    · exact absurd ((Rat.divInt_eq_zero (by omega)).mp h.symm) (by omega)
  · rw [Rat.divInt_le_divInt hm hm]
    exact mul_le_mul_of_nonneg_right ha (by omega)

/-- C10: both edge scorers always return either `+inf` or a strictly
positive finite value — never `0` (on any degree/neighbour state, the
numerator being a positive integer), and at least `1/denominator` when
the denominator is positive, which it is whenever both endpoint
degrees are at least `1`.  Consequently the falsiness test used by the
minimum-selection loop never mistakes a computed score for the unset
sentinel. -/
theorem c10_scores_positive (u v : Nat) (degree : Nat → Int) (nb : Nat → List Nat) :
    (edge_clustering_coefficient_3 u v degree nb ≠ some 0
      ∧ edge_clustering_coefficient_4 u v degree nb ≠ some 0
      ∧ isZeroScore (edge_clustering_coefficient_3 u v degree nb) = false
      ∧ isZeroScore (edge_clustering_coefficient_4 u v degree nb) = false)
    ∧ (1 ≤ degree u → 1 ≤ degree v →
        (edge_clustering_coefficient_3 u v degree nb = none
          ∨ ∃ q : ℚ, edge_clustering_coefficient_3 u v degree nb = some q
              ∧ 0 < q ∧ Rat.divInt 1 (mdeg3 u v degree) ≤ q)
        ∧ (edge_clustering_coefficient_4 u v degree nb = none
          ∨ ∃ q : ℚ, edge_clustering_coefficient_4 u v degree nb = some q
              ∧ 0 < q ∧ Rat.divInt 1 (mdeg4 u v degree) ≤ q)) := by
  refine ⟨⟨ecc3_ne_zero u v degree nb, ecc4_ne_zero u v degree nb,
    isZeroScore_eq_false_of_ne _ (ecc3_ne_zero u v degree nb),
    isZeroScore_eq_false_of_ne _ (ecc4_ne_zero u v degree nb)⟩, ?_⟩
  intro hu hv
  constructor
  · simp only [edge_clustering_coefficient_3]
    split
    · exact Or.inl rfl
    case isFalse hm =>
      refine Or.inr ⟨_, rfl, ?_⟩
      have hmpos : 0 < mdeg3 u v degree := by
        simp only [mdeg3] at hm ⊢
        omega
      exact divInt_pos_and_lb _ _ (by omega) hmpos
  · simp only [edge_clustering_coefficient_4]
    split
    · exact Or.inl rfl
    case isFalse hm =>
      refine Or.inr ⟨_, rfl, ?_⟩
      have hge : 0 ≤ mdeg4 u v degree := by
        simp only [mdeg4]
        exact mul_nonneg (by omega) (by omega)
      have hmpos : 0 < mdeg4 u v degree := by omega
      exact divInt_pos_and_lb _ _ (by omega) hmpos

/-- C10 at a concrete input: on the path `0 – 1 – 2` both endpoint
degrees of the edge `(0,1)` are at least one; the triangle score is
`+inf` and the square score is the positive value `1/2`. -/
theorem c10_scores_positive_witness :
    (1 ≤ initDegree ⟨3, [], [(0, 1), (1, 2)]⟩ 0
      ∧ 1 ≤ initDegree ⟨3, [], [(0, 1), (1, 2)]⟩ 1)
    ∧ ((edge_clustering_coefficient_3 0 1 (initDegree ⟨3, [], [(0, 1), (1, 2)]⟩)
          (initNeighbors ⟨3, [], [(0, 1), (1, 2)]⟩) = none
        ∨ ∃ q : ℚ, edge_clustering_coefficient_3 0 1 (initDegree ⟨3, [], [(0, 1), (1, 2)]⟩)
            (initNeighbors ⟨3, [], [(0, 1), (1, 2)]⟩) = some q
            ∧ 0 < q ∧ Rat.divInt 1 (mdeg3 0 1 (initDegree ⟨3, [], [(0, 1), (1, 2)]⟩)) ≤ q)
      ∧ (edge_clustering_coefficient_4 0 1 (initDegree ⟨3, [], [(0, 1), (1, 2)]⟩)
          (initNeighbors ⟨3, [], [(0, 1), (1, 2)]⟩) = none
        ∨ ∃ q : ℚ, edge_clustering_coefficient_4 0 1 (initDegree ⟨3, [], [(0, 1), (1, 2)]⟩)
            (initNeighbors ⟨3, [], [(0, 1), (1, 2)]⟩) = some q
            ∧ 0 < q ∧ Rat.divInt 1 (mdeg4 0 1 (initDegree ⟨3, [], [(0, 1), (1, 2)]⟩)) ≤ q)) :=
  ⟨⟨by decide, by decide⟩,
    (c10_scores_positive 0 1 (initDegree ⟨3, [], [(0, 1), (1, 2)]⟩)
      (initNeighbors ⟨3, [], [(0, 1), (1, 2)]⟩)).2 (by decide) (by decide)⟩

/-- The score order is irreflexive. -/
theorem sLt_irrefl (a : SVal) : sLt a a = false := by
  cases a with
  | none => rfl
  | some q => simp [sLt]

/-- The score order is transitive. -/
theorem sLt_trans {a b c : SVal} (h1 : sLt a b = true) (h2 : sLt b c = true) :
    sLt a c = true := by
  cases a <;> cases b <;> cases c <;> simp_all [sLt]
  linarith

/-- Mutually non-smaller scores are equal. -/
theorem sLt_antisymm {a b : SVal} (h1 : sLt a b = false) (h2 : sLt b a = false) :
    a = b := by
  cases a with
  | none =>
    cases b with
    | none => rfl
    | some q => simp [sLt] at h2
  | some qa =>
    cases b with
    | none => simp [sLt] at h1
    | some qb =>
      simp only [sLt, decide_eq_false_iff_not, not_lt] at h1 h2
      exact congrArg some (le_antisymm h2 h1)

/-- The score order is total: distinct scores compare one way. -/
theorem sLt_total {a b : SVal} (h1 : sLt a b = false) (h2 : a ≠ b) :
    sLt b a = true := by
  cases a with
  | none =>
    cases b with
    | none => exact absurd rfl h2
    | some q => simp [sLt]
  | some qa =>
    cases b with
    | none => simp [sLt] at h1
    | some qb =>
      simp only [sLt, decide_eq_false_iff_not, not_lt] at h1
      simp only [sLt, decide_eq_true_eq]
      exact lt_of_le_of_ne h1 (fun h => h2 (by rw [h]))

/-- Characterisation of the scan of radicchi.py lines 51–57 from an
accumulator holding a nonzero current minimum `m`: the scan returns a
minimum `M` of `m` and the scanned scores, keeps the accumulated edges
exactly when `m` stays minimal, and collects exactly the scanned edges
whose score equals `M`, in scan order. -/
theorem minStep_foldl_char (score : Nat × Nat → SVal) :
    ∀ (l : List (Nat × Nat)) (mes : List (Nat × Nat)) (m : SVal),
      m ≠ some 0 → (∀ e ∈ l, score e ≠ some 0) →
      ∃ M : SVal, M ≠ some 0
        ∧ l.foldl (minStep score) (mes, some m)
            = ((if M = m then mes else []) ++ l.filter (fun e => score e = M), some M)
        ∧ sLt m M = false
        ∧ (∀ e ∈ l, sLt (score e) M = false)
        ∧ (M = m ∨ ∃ e ∈ l, score e = M) := by
  intro l
  induction l with
  | nil =>
    intro mes m hm _
    exact ⟨m, hm, by simp, sLt_irrefl m, by simp, Or.inl rfl⟩
  | cons e l ih =>
    intro mes m hm hl
    have hse : score e ≠ some 0 := hl e (List.mem_cons_self e l)
    have hl' : ∀ f ∈ l, score f ≠ some 0 := fun f hf => hl f (List.mem_cons_of_mem e hf)
    have hz : isZeroScore m = false := isZeroScore_eq_false_of_ne m hm
    rw [List.foldl_cons]
    cases hsm : sLt (score e) m with
    | true =>
      have hstep : minStep score (mes, some m) e = ([e], some (score e)) := by
        simp [minStep, hz, hsm]
      rw [hstep]
      obtain ⟨M, hMne, hfold, hMle, hall, hor⟩ := ih [e] (score e) hse hl'
      have hMnm : M ≠ m := by
        intro hMm
        rw [hMm] at hMle
        exact Bool.noConfusion (hsm.symm.trans hMle)
      refine ⟨M, hMne, ?_, ?_, ?_, ?_⟩
      · rw [hfold, if_neg hMnm, List.filter_cons]
        rcases eq_or_ne M (score e) with heq | hne2
        · have hd : decide (score e = M) = true := by simp [heq.symm]
          rw [if_pos heq, if_pos hd]
          simp
        · have hd : ¬ (decide (score e = M) = true) := by
            simp only [decide_eq_true_eq]
            exact fun h => hne2 h.symm
          rw [if_neg hne2, if_neg hd]
      · cases hLt : sLt m M with
        | false => rfl
        | true =>
          have h2 := sLt_trans hsm hLt
          rw [hMle] at h2
          exact Bool.noConfusion h2
      · intro f hf
        rcases List.mem_cons.mp hf with rfl | hfl
        · exact hMle
        · exact hall f hfl
      · rcases hor with heq | ⟨f, hf, hfM⟩
        · exact Or.inr ⟨e, List.mem_cons_self e l, heq.symm⟩
        · exact Or.inr ⟨f, List.mem_cons_of_mem e hf, hfM⟩
    | false =>
      rcases eq_or_ne (score e) m with heq | hne
      · have hstep : minStep score (mes, some m) e = (mes ++ [e], some m) := by
          simp [minStep, hz, hsm, heq, sLt_irrefl]
        rw [hstep]
        obtain ⟨M, hMne, hfold, hMle, hall, hor⟩ := ih (mes ++ [e]) m hm hl'
        refine ⟨M, hMne, ?_, hMle, ?_, ?_⟩
        · rw [hfold, List.filter_cons]
          rcases eq_or_ne M m with hMm | hMnm
          · have hd : decide (score e = M) = true := by
              simp [heq, hMm]
            rw [if_pos hMm, if_pos hMm, if_pos hd]
            simp
          · have hd : ¬ (decide (score e = M) = true) := by
              simp only [decide_eq_true_eq]
              exact fun h => hMnm ((heq.symm.trans h).symm)
            rw [if_neg hMnm, if_neg hMnm, if_neg hd]
        · intro f hf
          rcases List.mem_cons.mp hf with rfl | hfl
          · rw [heq]
            exact hMle
          · exact hall f hfl
        · rcases hor with hMm | ⟨f, hf, hfM⟩
          · exact Or.inl hMm
          · exact Or.inr ⟨f, List.mem_cons_of_mem e hf, hfM⟩
      · have hstep : minStep score (mes, some m) e = (mes, some m) := by
          simp [minStep, hz, hsm, hne]
        rw [hstep]
        obtain ⟨M, hMne, hfold, hMle, hall, hor⟩ := ih mes m hm hl'
        have hEnM : score e ≠ M := fun hEM => hne (sLt_antisymm hsm (hEM ▸ hMle))
        refine ⟨M, hMne, ?_, hMle, ?_, ?_⟩
        · rw [hfold, List.filter_cons]
          have hd : ¬ (decide (score e = M) = true) := by
            simp only [decide_eq_true_eq]
            exact hEnM
          rw [if_neg hd]
        · intro f hf
          rcases List.mem_cons.mp hf with rfl | hfl
          · cases hLt : sLt (score f) M with
            | false => rfl
            | true =>
              rcases eq_or_ne M m with hMm | hMnm
              · rw [hMm] at hLt
                exact Bool.noConfusion (hsm.symm.trans hLt)
              · have h2 := sLt_trans hLt (sLt_total hMle (fun h => hMnm h.symm))
                rw [hsm] at h2
                exact Bool.noConfusion h2
          · exact hall f hfl
        · rcases hor with hMm | ⟨f, hf, hfM⟩
          · exact Or.inl hMm
          · exact Or.inr ⟨f, List.mem_cons_of_mem e hf, hfM⟩

/-- Characterisation of the full scan `findMinEdges`: on a nonempty
edge list with no zero scores it returns exactly the edges whose score
equals the global minimum score `M`, in scan order, together with
`M`. -/
theorem findMinEdges_char (score : Nat × Nat → SVal) (el : List (Nat × Nat))
    (hne : el ≠ []) (h0 : ∀ e ∈ el, score e ≠ some 0) :
    ∃ M : SVal,
      (findMinEdges score el).1 = el.filter (fun e => score e = M)
      ∧ (findMinEdges score el).2 = some M
      ∧ (∀ e ∈ el, sLt (score e) M = false)
      ∧ (∃ e ∈ el, score e = M) := by
  cases el with
  | nil => exact absurd rfl hne
  | cons e rest =>
    have h1 : findMinEdges score (e :: rest)
        = rest.foldl (minStep score) ([e], some (score e)) := rfl
    obtain ⟨M, hMne, hfold, hMle, hall, hor⟩ :=
      minStep_foldl_char score rest [e] (score e)
        (h0 e (List.mem_cons_self e rest))
        (fun f hf => h0 f (List.mem_cons_of_mem e hf))
    refine ⟨M, ?_, ?_, ?_, ?_⟩
    · rw [h1, hfold]
      show (if M = score e then [e] else []) ++ rest.filter (fun f => score f = M)
          = (e :: rest).filter (fun f => score f = M)
      rw [List.filter_cons]
      rcases eq_or_ne M (score e) with heq | hne2
      · have hd : decide (score e = M) = true := by simp [heq.symm]
        rw [if_pos heq, if_pos hd]
        simp
      · have hd : ¬ (decide (score e = M) = true) := by
          simp only [decide_eq_true_eq]
          exact fun h => hne2 h.symm
        rw [if_neg hne2, if_neg hd]
        simp
    · rw [h1, hfold]
    · intro f hf
      rcases List.mem_cons.mp hf with rfl | hfl
      · exact hMle
      · exact hall f hfl
    · rcases hor with heq | ⟨f, hf, hfM⟩
      · exact ⟨e, List.mem_cons_self e rest, heq.symm⟩
      · exact ⟨f, List.mem_cons_of_mem e hf, hfM⟩

/-- C4: on every scoring pass over a non-empty edge set, the batch of
edges selected for deletion (the batch the loop then removes in one
step) is exactly the set of edges whose score is less than or equal to
every current edge's score — ties collected by exact score equality,
`+inf` ties included — so the number of removed edges equals the
number of edges tied at the observed minimum. -/
theorem c4_batch_deletes_all_tied_minima (clustering : Nat) (degree : Nat → Int)
    (nb : Nat → List Nat) (el : List (Nat × Nat)) (hne : el ≠ []) :
    (∀ e, e ∈ (findMinEdges (fun f => eccDispatch clustering f.1 f.2 degree nb) el).1
        ↔ e ∈ el ∧ ∀ f ∈ el,
            sLt (eccDispatch clustering f.1 f.2 degree nb)
              (eccDispatch clustering e.1 e.2 degree nb) = false)
    ∧ (findMinEdges (fun f => eccDispatch clustering f.1 f.2 degree nb) el).1.length
        = (el.filter (fun e => el.all (fun f =>
            !sLt (eccDispatch clustering f.1 f.2 degree nb)
              (eccDispatch clustering e.1 e.2 degree nb)))).length := by
  have h0 : ∀ e ∈ el, (fun f => eccDispatch clustering f.1 f.2 degree nb) e ≠ some 0 := by
    intro e _
    simp only [eccDispatch]
    split
    · exact ecc3_ne_zero e.1 e.2 degree nb
    · exact ecc4_ne_zero e.1 e.2 degree nb
  obtain ⟨M, hmes, _, hall, hex⟩ := findMinEdges_char _ el hne h0
  have hiff : ∀ e ∈ el,
      (eccDispatch clustering e.1 e.2 degree nb = M
        ↔ ∀ f ∈ el, sLt (eccDispatch clustering f.1 f.2 degree nb)
            (eccDispatch clustering e.1 e.2 degree nb) = false) := by
    intro e he
    constructor
    · intro hEq f hf
      rw [hEq]
      exact hall f hf
    · intro hmin
      obtain ⟨g, hg, hgM⟩ := hex
      have h1 := hmin g hg
      rw [hgM] at h1
      exact sLt_antisymm (hall e he) h1
  constructor
  · intro e
    rw [hmes, List.mem_filter]
    constructor
    · rintro ⟨hel, hdec⟩
      exact ⟨hel, (hiff e hel).mp (by simpa using hdec)⟩
    · rintro ⟨hel, hmin⟩
      exact ⟨hel, by simpa using (hiff e hel).mpr hmin⟩
  · rw [hmes]
    have hptw : ∀ e ∈ el,
        (decide (eccDispatch clustering e.1 e.2 degree nb = M))
          = el.all (fun f => !sLt (eccDispatch clustering f.1 f.2 degree nb)
              (eccDispatch clustering e.1 e.2 degree nb)) := by
      intro e he
      cases hb : el.all (fun f => !sLt (eccDispatch clustering f.1 f.2 degree nb)
          (eccDispatch clustering e.1 e.2 degree nb)) with
      | true =>
        have hmin : ∀ f ∈ el, sLt (eccDispatch clustering f.1 f.2 degree nb)
            (eccDispatch clustering e.1 e.2 degree nb) = false := by
          intro f hf
          have h2 := List.all_eq_true.mp hb f hf
          simpa using h2
        exact decide_eq_true ((hiff e he).mpr hmin)
      | false =>
        refine decide_eq_false ?_
        intro hEq
        have hmin := (hiff e he).mp hEq
        have hba : el.all (fun f => !sLt (eccDispatch clustering f.1 f.2 degree nb)
            (eccDispatch clustering e.1 e.2 degree nb)) = true :=
          List.all_eq_true.mpr (fun f hf => by simpa using hmin f hf)
        rw [hb] at hba
        exact Bool.noConfusion hba
    rw [List.filter_congr hptw]

/-- C4 at a concrete input: on the path `0 – 1 – 2` both edges score
`+inf` under the triangle scorer (each has an endpoint of degree one),
and the scan collects both — a `+inf` tie removed as one batch. -/
theorem c4_batch_deletes_all_tied_minima_witness :
    ([((0 : Nat), (1 : Nat)), (1, 2)] ≠ ([] : List (Nat × Nat)))
    ∧ (findMinEdges (fun f => eccDispatch 3 f.1 f.2 (initDegree ⟨3, [], [(0, 1), (1, 2)]⟩)
        (initNeighbors ⟨3, [], [(0, 1), (1, 2)]⟩)) [(0, 1), (1, 2)]).1 = [(0, 1), (1, 2)]
    ∧ ((∀ e, e ∈ (findMinEdges (fun f => eccDispatch 3 f.1 f.2
            (initDegree ⟨3, [], [(0, 1), (1, 2)]⟩)
            (initNeighbors ⟨3, [], [(0, 1), (1, 2)]⟩)) [(0, 1), (1, 2)]).1
          ↔ e ∈ [(0, 1), (1, 2)] ∧ ∀ f ∈ [(0, 1), (1, 2)],
              sLt (eccDispatch 3 f.1 f.2 (initDegree ⟨3, [], [(0, 1), (1, 2)]⟩)
                  (initNeighbors ⟨3, [], [(0, 1), (1, 2)]⟩))
                (eccDispatch 3 e.1 e.2 (initDegree ⟨3, [], [(0, 1), (1, 2)]⟩)
                  (initNeighbors ⟨3, [], [(0, 1), (1, 2)]⟩)) = false)
      ∧ (findMinEdges (fun f => eccDispatch 3 f.1 f.2 (initDegree ⟨3, [], [(0, 1), (1, 2)]⟩)
          (initNeighbors ⟨3, [], [(0, 1), (1, 2)]⟩)) [(0, 1), (1, 2)]).1.length
        = ([(0, 1), (1, 2)].filter (fun e => [(0, 1), (1, 2)].all (fun f =>
            !sLt (eccDispatch 3 f.1 f.2 (initDegree ⟨3, [], [(0, 1), (1, 2)]⟩)
                (initNeighbors ⟨3, [], [(0, 1), (1, 2)]⟩))
              (eccDispatch 3 e.1 e.2 (initDegree ⟨3, [], [(0, 1), (1, 2)]⟩)
                (initNeighbors ⟨3, [], [(0, 1), (1, 2)]⟩))))).length) :=
  ⟨by decide, rfl,
    c4_batch_deletes_all_tied_minima 3 (initDegree ⟨3, [], [(0, 1), (1, 2)]⟩)
      (initNeighbors ⟨3, [], [(0, 1), (1, 2)]⟩) [(0, 1), (1, 2)] (by decide)⟩

/-- Two remove-one-element filters commute. -/
theorem filter_ne_comm (l : List Nat) (b d : Nat) :
    (l.filter (fun y => y ≠ d)).filter (fun y => y ≠ b)
      = (l.filter (fun y => y ≠ b)).filter (fun y => y ≠ d) := by
  simp only [List.filter_filter]
  exact List.filter_congr (fun y _ => by
    by_cases h1 : y = d <;> by_cases h2 : y = b <;> simp [h1, h2])

/-- Neighbour-set discards at different (or equal) positions commute. -/
theorem nupd_comm (a b c d : Nat) (f : Nat → List Nat) :
    nupd a b (nupd c d f) = nupd c d (nupd a b f) := by
  funext x
  simp only [nupd]
  split_ifs <;> first | rfl | exact filter_ne_comm (f x) b d

/-- Degree decrements at different (or equal) positions commute. -/
theorem dupd_comm (a c : Nat) (f : Nat → Int) :
    dupd a (dupd c f) = dupd c (dupd a f) := by
  funext x
  simp only [dupd]
  split_ifs <;> rfl

/-- The per-edge bookkeeping updates of two edges commute, so the batch
update is insensitive to the order the tied minimum edges were
collected in. -/
theorem discardUpd_comm (st : List (Nat × Nat) × (Nat → List Nat) × (Nat → Int))
    (e₁ e₂ : Nat × Nat) :
    discardUpd (discardUpd st e₁) e₂ = discardUpd (discardUpd st e₂) e₁ := by
  simp only [discardUpd]
  refine Prod.ext ?_ (Prod.ext ?_ ?_)
  · exact List.erase_comm e₁ e₂ st.1
  · show nupd e₂.2 e₂.1 (nupd e₂.1 e₂.2 (nupd e₁.2 e₁.1 (nupd e₁.1 e₁.2 st.2.1)))
        = nupd e₁.2 e₁.1 (nupd e₁.1 e₁.2 (nupd e₂.2 e₂.1 (nupd e₂.1 e₂.2 st.2.1)))
    rw [nupd_comm e₂.1 e₂.2 e₁.2 e₁.1, nupd_comm e₂.1 e₂.2 e₁.1 e₁.2,
      nupd_comm e₂.2 e₂.1 e₁.2 e₁.1, nupd_comm e₂.2 e₂.1 e₁.1 e₁.2]
  · show dupd e₂.2 (dupd e₂.1 (dupd e₁.2 (dupd e₁.1 st.2.2)))
        = dupd e₁.2 (dupd e₁.1 (dupd e₂.2 (dupd e₂.1 st.2.2)))
    rw [dupd_comm e₂.1 e₁.2, dupd_comm e₂.1 e₁.1,
      dupd_comm e₂.2 e₁.2, dupd_comm e₂.2 e₁.1]

/-- Membership tests agree on permuted lists. -/
theorem contains_eq_of_perm {l₁ l₂ : List (Nat × Nat)} (h : l₁.Perm l₂) (a : Nat × Nat) :
    l₁.contains a = l₂.contains a := by
  have hm : (a ∈ l₁) ↔ (a ∈ l₂) := h.mem_iff
  cases hb : l₂.contains a with
  | true =>
    have h1 : a ∈ l₁ := hm.mpr (by simpa using hb)
    simpa using h1
  | false =>
    have h1 : a ∉ l₂ := by simpa using hb
    have h2 : a ∉ l₁ := fun hx => h1 (hm.mp hx)
    simpa using h2

/-- Batch edge deletion only depends on the batch as a set. -/
theorem deleteEdges_congr_perm (g : Graph) {m₁ m₂ : List (Nat × Nat)} (h : m₁.Perm m₂) :
    g.deleteEdges m₁ = g.deleteEdges m₂ := by
  simp only [Graph.deleteEdges]
  congr 1
  exact List.filter_congr (fun e _ => by rw [contains_eq_of_perm h])

/-- The community-assembly fold hands the original graph through
unchanged whenever every recursive call does. -/
theorem assembleCommunities_orig (recurse : Graph → List Nat → List (List Nat) × Graph)
    (h : ∀ o c, (recurse o c).2 = o) (ocs ncs : List (List Nat)) (orig0 : Graph) :
    (assembleCommunities recurse ocs ncs orig0).2 = orig0 := by
  have key : ∀ (l : List (List Nat)) (acc : List (List Nat) × Graph × Nat),
      ((l.foldl (fun (acc : List (List Nat) × Graph × Nat) c =>
        let res := recurse acc.2.1 c
        ((if res.1.isEmpty then acc.1 ++ [ocs.getD acc.2.2 []] else acc.1 ++ res.1),
          res.2, acc.2.2 + 1)) acc).2.1) = acc.2.1 := by
    intro l
    induction l with
    | nil => intro acc; rfl
    | cons c l ih =>
      intro acc
      rw [List.foldl_cons, ih]
      exact h acc.2.1 c
  exact key ncs ([], orig0, 0)

/-- C8: the original graph is threaded through every recursion level
and every loop iteration untouched — whatever the fuel, working graph,
bookkeeping state, level, measure or clustering variant, the original
graph the call hands back is exactly the one it received, so its
vertex set, edge set and degrees are unchanged by edge removal,
subgraph building, and predicate evaluation. -/
theorem c8_original_graph_never_mutated (ord : OrdFn) :
    ∀ (fuel : Nat) (orig g : Graph) (degree : Nat → Int) (neighbors : Nat → List Nat)
      (edges : List (Nat × Nat)) (n_components level : Nat) (measure : String)
      (clustering : Nat),
      (radicchi_go ord fuel orig g degree neighbors edges n_components
        level measure clustering).2.2 = orig := by
  intro fuel
  induction fuel with
  | zero => intros; rfl
  | succ k ih =>
    intro orig g degree neighbors edges n_components level measure clustering
    simp only [radicchi_go]
    split
    · rfl
    · split
      · split
        · show (radicchi_go ord k _ _ _ _ _ _ _ _ _).2.2 = orig
          rw [ih]
          exact assembleCommunities_orig _ (fun o c => ih o _ _ _ _ _ _ _ _) _ _ _
        · exact ih orig _ _ _ _ _ _ _ _
      · exact ih orig _ _ _ _ _ _ _ _

/-- The min-score batch collected over any enumeration order of the
edge set is a permutation of the batch collected over the canonical
order: both are the edges achieving the (order-independent) minimum
score. -/
theorem findMinEdges_perm (score : Nat × Nat → SVal)
    (h0 : ∀ e, score e ≠ some 0)
    {l₁ l₂ : List (Nat × Nat)} (hp : l₁.Perm l₂) :
    ((findMinEdges score l₁).1).Perm ((findMinEdges score l₂).1) := by
  cases hl₂ : l₂ with
  | nil =>
    subst hl₂
    rw [hp.eq_nil]
  | cons e rest =>
    subst hl₂
    have hne₂ : (e :: rest) ≠ ([] : List (Nat × Nat)) := by simp
    have hne₁ : l₁ ≠ [] := by
      intro h
      have hlen := hp.length_eq
      rw [h] at hlen
      simp at hlen
    obtain ⟨M₁, hm₁, _, hall₁, hex₁⟩ := findMinEdges_char score l₁ hne₁ (fun f _ => h0 f)
    obtain ⟨M₂, hm₂, _, hall₂, hex₂⟩ :=
      findMinEdges_char score (e :: rest) hne₂ (fun f _ => h0 f)
    have hMeq : M₁ = M₂ := by
      obtain ⟨g₁, hg₁, hgM₁⟩ := hex₁
      obtain ⟨g₂, hg₂, hgM₂⟩ := hex₂
      have h1 : sLt M₂ M₁ = false := by
        have h3 := hall₁ g₂ (hp.mem_iff.mpr hg₂)
        rwa [hgM₂] at h3
      have h2 : sLt M₁ M₂ = false := by
        have h3 := hall₂ g₁ (hp.mem_iff.mp hg₁)
        rwa [hgM₁] at h3
      exact sLt_antisymm h2 h1
    rw [hm₁, hm₂, hMeq]
    exact hp.filter _

/-- Every enumeration order of the Python edge set produces the run the
canonical order produces: the minimum batch is the same set, deletion
and the bookkeeping updates are order-insensitive, and everything
downstream (components, pruning, recursion) is a function of that
state. -/
theorem radicchi_go_ord_irrelevant (ord : OrdFn) (hord : ∀ l, (ord l).Perm l) :
    ∀ (fuel : Nat) (orig g : Graph) (degree : Nat → Int) (neighbors : Nat → List Nat)
      (edges : List (Nat × Nat)) (n_components level : Nat) (measure : String)
      (clustering : Nat),
      radicchi_go ord fuel orig g degree neighbors edges n_components level measure clustering
        = radicchi_go (fun l => l) fuel orig g degree neighbors edges n_components
            level measure clustering := by
  intro fuel
  induction fuel with
  | zero => intros; rfl
  | succ k ih =>
    intro orig g degree neighbors edges n_components level measure clustering
    have h0 : ∀ e : Nat × Nat,
        (fun f : Nat × Nat => eccDispatch clustering f.1 f.2 degree neighbors) e ≠ some 0 := by
      intro e
      simp only [eccDispatch]
      split
      · exact ecc3_ne_zero e.1 e.2 degree neighbors
      · exact ecc4_ne_zero e.1 e.2 degree neighbors
    have hperm : ((findMinEdges (fun f : Nat × Nat =>
          eccDispatch clustering f.1 f.2 degree neighbors) (ord edges)).1).Perm
        ((findMinEdges (fun f : Nat × Nat =>
          eccDispatch clustering f.1 f.2 degree neighbors) edges).1) :=
      findMinEdges_perm _ h0 (hord edges)
    have hdel : g.deleteEdges (findMinEdges (fun f : Nat × Nat =>
          eccDispatch clustering f.1 f.2 degree neighbors) (ord edges)).1
        = g.deleteEdges (findMinEdges (fun f : Nat × Nat =>
          eccDispatch clustering f.1 f.2 degree neighbors) edges).1 :=
      deleteEdges_congr_perm g hperm
    have hupd : (findMinEdges (fun f : Nat × Nat =>
          eccDispatch clustering f.1 f.2 degree neighbors) (ord edges)).1.foldl
          discardUpd (edges, neighbors, degree)
        = (findMinEdges (fun f : Nat × Nat =>
          eccDispatch clustering f.1 f.2 degree neighbors) edges).1.foldl
          discardUpd (edges, neighbors, degree) :=
      hperm.foldl_eq' (fun x _ y _ z => discardUpd_comm z x y) _
    simp only [radicchi_go]
    rw [hdel, hupd]
    simp only [ih]

/-- C5: the algorithm is deterministic across internal edge-iteration
orders — two top-level runs on the same graph and measure whose scans
enumerate the edge set in different (arbitrary) orders return the
identical labelling, because all tied minimum-score edges are removed
together rather than picked individually. -/
theorem c5_deterministic_under_iteration_order (G : Graph) (measure : String)
    (ord₁ ord₂ : OrdFn) (h₁ : ∀ l, (ord₁ l).Perm l) (h₂ : ∀ l, (ord₂ l).Perm l) :
    radicchiWithOrd ord₁ G measure = radicchiWithOrd ord₂ G measure := by
  have key : ∀ (ord : OrdFn), (∀ l, (ord l).Perm l) →
      radicchiGroups ord G measure = radicchiGroups (fun l => l) G measure := by
    intro ord hord
    by_cases hw : measure = "weak"
    · simp only [radicchiGroups, if_pos hw]
      rw [radicchi_internal, radicchi_internal, radicchi_go_ord_irrelevant ord hord]
    · by_cases hs : measure = "strong"
      · simp only [radicchiGroups, if_neg hw, if_pos hs]
        rw [radicchi_internal, radicchi_internal, radicchi_go_ord_irrelevant ord hord]
      · simp only [radicchiGroups, if_neg hw, if_neg hs]
  rw [radicchiWithOrd, radicchiWithOrd, key ord₁ h₁, key ord₂ h₂]

/-- C5 at a concrete input: enumerating the edge set in reversed order
gives the same labelling as the canonical order on the two-triangle
bridge graph. -/
theorem c5_deterministic_witness :
    (∀ l : List (Nat × Nat), (l.reverse).Perm l)
    ∧ radicchiWithOrd (fun l => l.reverse) bridgeGraph "strong"
        = radicchiWithOrd (fun l => l) bridgeGraph "strong" :=
  ⟨fun l => l.reverse_perm,
    c5_deterministic_under_iteration_order bridgeGraph "strong"
      (fun l => l.reverse) (fun l => l)
      (fun l => l.reverse_perm) (fun l => List.Perm.refl l)⟩
